import Mathlib

/-!
Verification of the ACME assembler lexer / statement classifier
(src/src/language/language_asm.js).

The source buffer is embedded as a list of character codes (JS
`charCodeAt` values).  The scanner, classifier and lookup helpers are
translated function-by-function from the source.  The generic positional
primitives (Range, Token, AbstractSyntaxTree) and the character-class
helpers live in files that are not part of this repository snapshot;
they are modelled from the specification and marked as such.
-/

namespace Vs64Asm

/-- A source buffer character code, JS style (`charCodeAt`). -/
abbrev CharNat := Nat

/-- Decode a Lean string literal into the character-code list used by the
scanner (JS strings indexed by `charCodeAt`). -/
def strCodes (s : String) : List Nat :=
  s.data.map Char.toNat

/-- Modelled from the spec: `ParserHelper.isAlpha` (utilities/utils, not in
the snapshot) — an ASCII alphabetic character. -/
def isAlpha (c : Nat) : Bool :=
  (65 ≤ c && c ≤ 90) || (97 ≤ c && c ≤ 122)

/-- Modelled from the spec: `ParserHelper.isNumeric` — an ASCII digit. -/
def isNumeric (c : Nat) : Bool :=
  48 ≤ c && c ≤ 57

/-- Modelled from the spec: `ParserHelper.isSymbolChar` (utilities/utils, not
in the snapshot) — a symbol-constituent character, which the spec describes
as alphanumeric, underscore or period. -/
def isSymbolChar (c : Nat) : Bool :=
  isAlpha c || isNumeric c || c == 95 || c == 46

/-- Modelled from the spec: `ParserHelper.isWhitespace` — ASCII whitespace
(space, tab, vertical tab, form feed, carriage return, line feed). -/
def isWhitespace (c : Nat) : Bool :=
  c == 32 || c == 9 || c == 11 || c == 12 || c == 13 || c == 10

/-- Modelled from the spec: the `Range` value type (language/language_base,
not in the snapshot): start offset, row, column and a length that grows one
character at a time via `inc`, starting empty at creation. -/
structure Range where
  ofs : Nat
  row : Nat
  col : Nat
  length : Nat
  deriving DecidableEq, Repr

/-- Modelled from the spec: `Range.inc` grows the span by one character. -/
def Range.inc (r : Range) : Range :=
  { r with length := r.length + 1 }

/-- Token kinds, from `TokenType` as used by the parser. -/
inductive TokenType where
  | LineBreak
  | Comment
  | Identifier
  | Macro
  | Reference
  | String
  deriving DecidableEq, Repr

/-- Modelled from the spec: the `Token` value type — kind, span and the
deferred "first token on its logical line" flag (`setFirstFlag`). -/
structure Token where
  type : TokenType
  range : Range
  first : Bool
  deriving DecidableEq, Repr

/-- Modelled from the spec: `Token.text` — the substring of the owning
source buffer covered by the token's span. -/
def tokenText (src : List Nat) (t : Token) : List Nat :=
  (src.drop t.range.ofs).take t.range.length

/-- Statement kinds, from `StatementType` as used by the parser. -/
inductive StatementType where
  | Definition
  | Comment
  deriving DecidableEq, Repr

/-- Modelled from the spec: the `Statement` value type — kind plus a
reference into the token stream (start index and count). -/
structure Statement where
  type : StatementType
  ofs : Nat
  count : Nat
  deriving DecidableEq, Repr

/-- Modelled from the spec: the `AbstractSyntaxTree` aggregate — ordered
token list, ordered statement list, ordered definition list. -/
structure AST where
  tokens : List Token
  statements : List Statement
  definitions : List Statement
  deriving DecidableEq, Repr

/-- Modelled from the spec: `ast.addToken` appends to the token list. -/
def AST.addToken (ast : AST) (t : Token) : AST :=
  { ast with tokens := ast.tokens ++ [t] }

/-- Modelled from the spec: `ast.addStatement` appends to the statement
list. -/
def AST.addStatement (ast : AST) (s : Statement) : AST :=
  { ast with statements := ast.statements ++ [s] }

/-- Modelled from the spec: `ast.addDefinition` appends to the definition
list. -/
def AST.addDefinition (ast : AST) (s : Statement) : AST :=
  { ast with definitions := ast.definitions ++ [s] }

/-- The empty aggregate a fresh parse run starts from. -/
def emptyAst : AST := ⟨[], [], []⟩

/-- Placeholder token used to translate JS array indexing; every use is
guarded by a length check, exactly as in the source. -/
def defaultToken : Token := ⟨TokenType.LineBreak, ⟨0, 0, 0, 0⟩, false⟩

/-- `ParserIterator` (language_asm.js lines 63-92): offset plus derived
row/column.  The buffer and its length are passed alongside. -/
structure ParserIterator where
  ofs : Nat
  row : Nat
  col : Nat
  deriving DecidableEq, Repr

/-- `ParserIterator.eof`: offset at or past the end of the buffer. -/
def ParserIterator.eof (src : List Nat) (it : ParserIterator) : Bool :=
  src.length ≤ it.ofs

/-- `ParserIterator.peek`: the character code at the current offset, or the
sentinel 0 at end of input. -/
def ParserIterator.peek (src : List Nat) (it : ParserIterator) : Nat :=
  if src.length ≤ it.ofs then 0 else src.getD it.ofs 0

/-- `ParserIterator.next`: advance one character, bumping the column. -/
def ParserIterator.next (it : ParserIterator) : ParserIterator :=
  { it with ofs := it.ofs + 1, col := it.col + 1 }

/-- `ParserIterator.nextline`: advance one character, bumping the row and
resetting the column. -/
def ParserIterator.nextline (it : ParserIterator) : ParserIterator :=
  { ofs := it.ofs + 1, row := it.row + 1, col := 0 }

/-- The lookahead character `c2` of the parse loop: the code at `ofs + 1`
when it is in range, else 0 (language_asm.js line 119). -/
def nextChar (src : List Nat) (it : ParserIterator) : Nat :=
  if it.ofs + 1 < src.length then src.getD (it.ofs + 1) 0 else 0

/-- A fresh, empty span anchored at the iterator's current position
(`new Range(it.ofs, it.row, it.col)`). -/
def mkRange (it : ParserIterator) : Range :=
  ⟨it.ofs, it.row, it.col, 0⟩

/-- One of the source's `while (it.ofs < len && p(src.charCodeAt(it.ofs)))
{ range.inc(); it.next(); }` loops, driven by explicit fuel.  The fuel is
always instantiated with `src.length - it.ofs`, which the loop can never
exhaust early because every step requires `it.ofs < src.length` and
advances the offset by one. -/
def scanWhileF (src : List Nat) (p : Nat → Bool) :
    Nat → ParserIterator → Range → ParserIterator × Range
  | 0, it, r => (it, r)
  | fuel + 1, it, r =>
    if it.ofs < src.length ∧ p (src.getD it.ofs 0) = true then
      scanWhileF src p fuel (ParserIterator.next it) (Range.inc r)
    else
      (it, r)

/-- The scanner's character-class loop with its canonical fuel. -/
def scanWhile (src : List Nat) (p : Nat → Bool) (it : ParserIterator)
    (r : Range) : ParserIterator × Range :=
  scanWhileF src p (src.length - it.ofs) it r

/-- Loop predicate of the comment branch: not a line-ending character. -/
def notEol (c : Nat) : Bool :=
  !(c == 13 || c == 10)

/-- Loop predicate of the string branch: not the opening quote character. -/
def notChar (q c : Nat) : Bool :=
  !(c == q)

/-- End iterator of the string-literal branch: the position after the
closing quote when one was found before end of input, else the end
position itself (language_asm.js lines 196-202). -/
def stringEndIt (src : List Nat) (q : Nat) (it : ParserIterator) :
    ParserIterator :=
  if (scanWhile src (notChar q) (ParserIterator.next it)
        (mkRange (ParserIterator.next it))).1.ofs < src.length then
    ParserIterator.next (scanWhile src (notChar q) (ParserIterator.next it)
      (mkRange (ParserIterator.next it))).1
  else
    (scanWhile src (notChar q) (ParserIterator.next it)
      (mkRange (ParserIterator.next it))).1

/-- One iteration of the scanner's main loop (language_asm.js lines
116-208): recognizes at most one token group at the current character and
returns the advanced iterator together with the emitted tokens, in order.
Character codes: 13 CR, 10 LF, 59 `;`, 43 `+`, 46 `.`, 95 `_`, 33 `!`,
39 single quote, 34 double quote. -/
def scanToken (src : List Nat) (lineCount : Nat) (it : ParserIterator) :
    ParserIterator × List Token :=
  if ParserIterator.peek src it = 13 ∨ ParserIterator.peek src it = 10 then
    if ParserIterator.peek src it = 13 ∧ nextChar src it = 10 then
      (ParserIterator.nextline (ParserIterator.next it),
       [⟨TokenType.LineBreak, Range.inc (mkRange it), false⟩])
    else
      (ParserIterator.nextline it, [⟨TokenType.LineBreak, mkRange it, false⟩])
  else if ParserIterator.peek src it = 59 then
    ((scanWhile src notEol it (mkRange it)).1,
     [⟨TokenType.Comment, (scanWhile src notEol it (mkRange it)).2, false⟩])
  else if ParserIterator.peek src it = 43 ∧ nextChar src it = 43 then
    (ParserIterator.next (ParserIterator.next it), [])
  else if ParserIterator.peek src it = 46 ∨ ParserIterator.peek src it = 95 ∨
      isAlpha (ParserIterator.peek src it) = true ∨
      (ParserIterator.peek src it = 43 ∧
        isSymbolChar (nextChar src it) = true) then
    if ParserIterator.peek src it = 43 ∧
        isSymbolChar (nextChar src it) = true then
      if lineCount = 0 then
        ((scanWhile src isSymbolChar (ParserIterator.next it)
            (mkRange (ParserIterator.next it))).1,
         [⟨TokenType.Reference, Range.inc (mkRange it), false⟩,
          ⟨TokenType.Identifier,
           (scanWhile src isSymbolChar (ParserIterator.next it)
             (mkRange (ParserIterator.next it))).2, false⟩])
      else
        ((scanWhile src isSymbolChar
            (ParserIterator.next (ParserIterator.next it))
            (Range.inc (mkRange (ParserIterator.next it)))).1,
         [⟨TokenType.Identifier,
           (scanWhile src isSymbolChar
             (ParserIterator.next (ParserIterator.next it))
             (Range.inc (mkRange (ParserIterator.next it)))).2, false⟩])
    else
      ((scanWhile src isSymbolChar (ParserIterator.next it)
          (Range.inc (mkRange it))).1,
       [⟨TokenType.Identifier,
         (scanWhile src isSymbolChar (ParserIterator.next it)
           (Range.inc (mkRange it))).2, false⟩])
  else if ParserIterator.peek src it = 33 then
    ((scanWhile src isSymbolChar (ParserIterator.next it)
        (Range.inc (mkRange it))).1,
     [⟨TokenType.Macro,
       (scanWhile src isSymbolChar (ParserIterator.next it)
         (Range.inc (mkRange it))).2, false⟩])
  else if ParserIterator.peek src it = 39 ∨ ParserIterator.peek src it = 34 then
    (stringEndIt src (ParserIterator.peek src it) it,
     [⟨TokenType.String,
       (scanWhile src (notChar (ParserIterator.peek src it))
         (ParserIterator.next it)
         (mkRange (ParserIterator.next it))).2, false⟩])
  else
    (ParserIterator.next it, [])

/-- The scanner's per-line bookkeeping state: `tokensPerLineOfs` (the JS
code uses the sentinel -1), `tokensPerLineCount`, and the aggregate. -/
structure LexState where
  lineOfs : Int
  lineCount : Nat
  ast : AST
  deriving DecidableEq, Repr

/-- `AcmeParser.lexer` (language_asm.js lines 237-278): the statement
classifier for one logical line `[tokenOffset, tokenOffset + tokenCount)`
of the token stream.  `isOp` models the external `token.isOpcode()` lookup
as a predicate on the token's text.  The offset is an `Int` as in the
source (sentinel -1); it is only ever invoked with a non-negative value. -/
def lexer (isOp : List Nat → Bool) (src : List Nat) (ast : AST)
    (tokenOffset : Int) (tokenCount : Nat) : AST :=
  if tokenCount < 1 then ast
  else
    let ofs := tokenOffset.toNat
    let count := tokenCount
    let tokens := ast.tokens
    if tokens.length < ofs + count then ast
    else
      let token := tokens.getD ofs defaultToken
      let statement : Option Statement :=
        if token.type = TokenType.Identifier then
          if isOp (tokenText src token) = false then
            some ⟨StatementType.Definition, ofs, 1⟩
          else none
        else if token.type = TokenType.Comment then
          some ⟨StatementType.Comment, ofs, 1⟩
        else if 1 < count then
          let token2 := tokens.getD (ofs + 1) defaultToken
          let macroCommand := tokenText src token
          if token.type = TokenType.Macro ∧
              (macroCommand = strCodes "!macro" ∨
               macroCommand = strCodes "!set" ∨
               macroCommand = strCodes "!addr") ∧
              token2.type = TokenType.Identifier then
            if isOp (tokenText src token2) = false then
              some ⟨StatementType.Definition, ofs + 1, 1⟩
            else none
          else none
        else none
      match statement with
      | none => ast
      | some s =>
        let ast := AST.addStatement ast s
        if s.type = StatementType.Definition then AST.addDefinition ast s
        else ast

/-- Per-token bookkeeping of the parse loop (language_asm.js lines
210-227): flag the token when it is first on its line, append it, and
either hand a completed line to the classifier (line break / comment) or
extend the current line. -/
def processToken (isOp : List Nat → Bool) (src : List Nat) (ls : LexState)
    (token : Token) : LexState :=
  let token := if ls.lineCount = 0 then { token with first := true } else token
  let ast := AST.addToken ls.ast token
  if token.type = TokenType.LineBreak ∨ token.type = TokenType.Comment then
    if 0 < ls.lineCount then
      ⟨-1, 0, lexer isOp src ast ls.lineOfs ls.lineCount⟩
    else
      ⟨ls.lineOfs, ls.lineCount, ast⟩
  else
    ⟨if ls.lineOfs = -1 then (ast.tokens.length : Int) - 1 else ls.lineOfs,
     ls.lineCount + 1, ast⟩

/-- Full state of the parse loop: the iterator plus the line bookkeeping. -/
structure ScanState where
  it : ParserIterator
  ls : LexState
  deriving DecidableEq, Repr

/-- One full iteration of the parse loop: scan one token group and run the
per-token bookkeeping over it. -/
def parseStep (isOp : List Nat → Bool) (src : List Nat) (st : ScanState) :
    ScanState :=
  ⟨(scanToken src st.ls.lineCount st.it).1,
   ((scanToken src st.ls.lineCount st.it).2).foldl (processToken isOp src)
     st.ls⟩

/-- The scanner's `while (!it.eof())` loop, driven by explicit fuel.  The
fuel is instantiated with `src.length`, which suffices because every
iteration advances the offset by at least one character. -/
def parseLoop (isOp : List Nat → Bool) (src : List Nat) :
    Nat → ScanState → ScanState
  | 0, st => st
  | fuel + 1, st =>
    if st.it.ofs < src.length then
      parseLoop isOp src fuel (parseStep isOp src st)
    else st

/-- The state a parse run starts from: iterator at the origin, sentinel
line offset, zero line count, empty aggregate. -/
def initState : ScanState := ⟨⟨0, 0, 0⟩, ⟨-1, 0, emptyAst⟩⟩

/-- `AcmeParser.parse` (language_asm.js lines 104-235): run the scanner
over the whole buffer, then flush a still-accumulated final line through
the classifier. -/
def parse (isOp : List Nat → Bool) (src : List Nat) : AST :=
  let st := parseLoop isOp src src.length initState
  if 0 < st.ls.lineCount then
    lexer isOp src st.ls.ast st.ls.lineOfs st.ls.lineCount
  else
    st.ls.ast

/-- `AcmeGrammar.pseudoOpcodes` (language_asm.js lines 29-35), in
declaration order. -/
def pseudoOpcodes : List String :=
  ["fill", "fi", "align", "convtab", "ct", "text", "tx", "pet", "raw",
   "scr", "scrxor", "to", "source", "src", "binary", "bin", "zone", "zn",
   "sl", "svl", "sal", "pdb", "if", "ifdef", "for", "do", "endoffile",
   "warn", "error", "serious", "macro", "set", "initmem", "pseudopc",
   "cpu", "al", "as", "rl", "rs", "cbm", "subzone", "sz", "realpc",
   "previouscontext", "byte", "by", "word", "wo"]

/-- `AcmeGrammar.fuzzySearch` (language_asm.js lines 37-55): `none` models
the JS `null` result.  The JS loop that pushes every `"!" ++ item` whose
text starts with the query is rendered as a map plus an order-preserving
filter; `startsWith` is the literal prefix test. -/
def fuzzySearch (query : String) : Option (List String) :=
  if query.length < 1 then none
  else
    let items :=
      if query.data.headD ' ' = '!' then
        (pseudoOpcodes.map (fun item => "!" ++ item)).filter
          (fun token => query.data.isPrefixOf token.data)
      else []
    if items.length < 1 then none else some items

/-- Leftward expansion of `getTokenAtSourcePos` (language_asm.js lines
294-304), recursing on the start position.  The source's final
`if (c == '.') break` compares the numeric character code with the string
value of a period; in JS that comparison is never true, so the loop never
breaks there and the translation carries no such exit. -/
def expandLeft (source : List Nat) (greedyParsing : Bool) : Nat → Nat
  | 0 => 0
  | startPos + 1 =>
    if greedyParsing then
      if isWhitespace (source.getD startPos 0) then startPos + 1
      else expandLeft source greedyParsing startPos
    else
      if source.getD startPos 0 ≠ 46 ∧
          isSymbolChar (source.getD startPos 0) = false then startPos + 1
      else expandLeft source greedyParsing startPos

/-- Rightward expansion of `getTokenAtSourcePos` (language_asm.js lines
308-314), driven by fuel `source.length - endPos`, which the loop cannot
exhaust early because every step requires `endPos < source.length`. -/
def expandRightF (source : List Nat) : Nat → Nat → Nat
  | 0, endPos => endPos
  | fuel + 1, endPos =>
    if endPos < source.length ∧ isSymbolChar (source.getD endPos 0) = true then
      expandRightF source fuel (endPos + 1)
    else endPos

/-- JS `String.prototype.trim` on a character-code list: whitespace
stripped from both ends. -/
def trimCodes (l : List Nat) : List Nat :=
  ((l.dropWhile isWhitespace).reverse.dropWhile isWhitespace).reverse

/-- `AcmeParser.getTokenAtSourcePos` (language_asm.js lines 292-320):
expand left from the offset, expand right unless `leftOnly`, return the
trimmed substring or `none` (JS `null`) when it is empty.  JS
`substring(startPos, endPos)` clamps to the buffer, rendered with
`take`/`drop`. -/
def getTokenAtSourcePos (source : List Nat) (offset : Nat)
    (leftOnly greedyParsing : Bool) : Option (List Nat) :=
  let startPos := expandLeft source greedyParsing offset
  let endPos :=
    if leftOnly then offset + 1
    else expandRightF source (source.length - (offset + 1)) (offset + 1)
  let token := trimCodes ((source.take endPos).drop startPos)
  if token.length < 1 then none else some token

end Vs64Asm

namespace Vs64Asm

/-! ## Projection lemmas -/

@[simp] theorem ParserIterator.next_ofs (it : ParserIterator) :
    (ParserIterator.next it).ofs = it.ofs + 1 := rfl

@[simp] theorem ParserIterator.next_row (it : ParserIterator) :
    (ParserIterator.next it).row = it.row := rfl

@[simp] theorem ParserIterator.next_col (it : ParserIterator) :
    (ParserIterator.next it).col = it.col + 1 := rfl

@[simp] theorem ParserIterator.nextline_ofs (it : ParserIterator) :
    (ParserIterator.nextline it).ofs = it.ofs + 1 := rfl

@[simp] theorem ParserIterator.nextline_row (it : ParserIterator) :
    (ParserIterator.nextline it).row = it.row + 1 := rfl

@[simp] theorem ParserIterator.nextline_col (it : ParserIterator) :
    (ParserIterator.nextline it).col = 0 := rfl

@[simp] theorem Range.inc_ofs (r : Range) : (Range.inc r).ofs = r.ofs := rfl

@[simp] theorem Range.inc_row (r : Range) : (Range.inc r).row = r.row := rfl

@[simp] theorem Range.inc_col (r : Range) : (Range.inc r).col = r.col := rfl

@[simp] theorem Range.inc_length (r : Range) :
    (Range.inc r).length = r.length + 1 := rfl

@[simp] theorem mkRange_ofs (it : ParserIterator) :
    (mkRange it).ofs = it.ofs := rfl

@[simp] theorem mkRange_row (it : ParserIterator) :
    (mkRange it).row = it.row := rfl

@[simp] theorem mkRange_col (it : ParserIterator) :
    (mkRange it).col = it.col := rfl

@[simp] theorem mkRange_length (it : ParserIterator) :
    (mkRange it).length = 0 := rfl

/-! ## Helper lemmas about the character-class loop -/

/-- Field accounting for the scanner's character-class loop: the span keeps
its anchor, and offset and length advance in lockstep, never past the end
of the buffer. -/
theorem scanWhileF_fields (src : List Nat) (p : Nat → Bool) :
    ∀ (fuel : Nat) (it : ParserIterator) (r : Range),
      (scanWhileF src p fuel it r).2.ofs = r.ofs ∧
      (scanWhileF src p fuel it r).2.row = r.row ∧
      (scanWhileF src p fuel it r).2.col = r.col ∧
      it.ofs + (scanWhileF src p fuel it r).2.length =
        (scanWhileF src p fuel it r).1.ofs + r.length ∧
      it.ofs ≤ (scanWhileF src p fuel it r).1.ofs ∧
      (it.ofs ≤ src.length → (scanWhileF src p fuel it r).1.ofs ≤ src.length) := by
  intro fuel
  induction fuel with
  | zero =>
    intro it r
    simp [scanWhileF]
  | succ n ih =>
    intro it r
    simp only [scanWhileF]
    split
    · next h =>
      have hrec := ih (ParserIterator.next it) (Range.inc r)
      simp only [ParserIterator.next_ofs, Range.inc_ofs, Range.inc_row,
        Range.inc_col, Range.inc_length] at hrec
      obtain ⟨h1, h2, h3, h4, h5, h6⟩ := hrec
      have hlt : it.ofs < src.length := h.1
      exact ⟨h1, h2, h3, by omega, by omega,
        fun hle => by have := h6 (by omega); omega⟩
    · next h =>
      simp

/-- The same accounting for the loop at its canonical fuel. -/
theorem scanWhile_fields (src : List Nat) (p : Nat → Bool)
    (it : ParserIterator) (r : Range) :
    (scanWhile src p it r).2.ofs = r.ofs ∧
    (scanWhile src p it r).2.row = r.row ∧
    (scanWhile src p it r).2.col = r.col ∧
    it.ofs + (scanWhile src p it r).2.length =
      (scanWhile src p it r).1.ofs + r.length ∧
    it.ofs ≤ (scanWhile src p it r).1.ofs ∧
    (it.ofs ≤ src.length → (scanWhile src p it r).1.ofs ≤ src.length) :=
  scanWhileF_fields src p (src.length - it.ofs) it r

/-- When the loop condition holds at entry, the loop advances. -/
theorem scanWhile_advance (src : List Nat) (p : Nat → Bool)
    (it : ParserIterator) (r : Range) (h1 : it.ofs < src.length)
    (h2 : p (src.getD it.ofs 0) = true) :
    it.ofs < (scanWhile src p it r).1.ofs := by
  unfold scanWhile
  obtain ⟨n, hn⟩ : ∃ n, src.length - it.ofs = n + 1 :=
    ⟨src.length - it.ofs - 1, by omega⟩
  rw [hn]
  have hrec :=
    (scanWhileF_fields src p n (ParserIterator.next it) (Range.inc r)).2.2.2.2.1
  simp only [ParserIterator.next_ofs] at hrec
  simp only [scanWhileF]
  split
  · next h => omega
  · next h => exact absurd ⟨h1, h2⟩ h

/-- When every remaining character satisfies the predicate, the loop runs
to the end of the buffer. -/
theorem scanWhileF_all (src : List Nat) (p : Nat → Bool) :
    ∀ (fuel : Nat) (it : ParserIterator) (r : Range),
      it.ofs ≤ src.length → src.length ≤ it.ofs + fuel →
      (∀ j, it.ofs ≤ j → j < src.length → p (src.getD j 0) = true) →
      (scanWhileF src p fuel it r).1.ofs = src.length ∧
      (scanWhileF src p fuel it r).1.row = it.row ∧
      (scanWhileF src p fuel it r).1.col = it.col + (src.length - it.ofs) ∧
      (scanWhileF src p fuel it r).2.ofs = r.ofs ∧
      (scanWhileF src p fuel it r).2.row = r.row ∧
      (scanWhileF src p fuel it r).2.col = r.col ∧
      (scanWhileF src p fuel it r).2.length =
        r.length + (src.length - it.ofs) := by
  intro fuel
  induction fuel with
  | zero =>
    intro it r hle hge _
    have ho : it.ofs = src.length := by omega
    refine ⟨?_, ?_, ?_, ?_, ?_, ?_, ?_⟩ <;> simp only [scanWhileF] <;> omega
  | succ n ih =>
    intro it r hle hge hall
    simp only [scanWhileF]
    split
    · next h =>
      have hlt : it.ofs < src.length := h.1
      have hrec := ih (ParserIterator.next it) (Range.inc r)
        (by simp only [ParserIterator.next_ofs]; omega)
        (by simp only [ParserIterator.next_ofs]; omega)
        (fun j hj1 hj2 => hall j
          (by simp only [ParserIterator.next_ofs] at hj1; omega) hj2)
      simp only [ParserIterator.next_ofs, ParserIterator.next_row,
        ParserIterator.next_col, Range.inc_ofs, Range.inc_row, Range.inc_col,
        Range.inc_length] at hrec
      obtain ⟨a1, a2, a3, a4, a5, a6, a7⟩ := hrec
      exact ⟨a1, a2, by omega, a4, a5, a6, by omega⟩
    · next h =>
      have hno : ¬ (it.ofs < src.length) :=
        fun hc => h ⟨hc, hall it.ofs (Nat.le_refl _) hc⟩
      have ho : it.ofs = src.length := by omega
      refine ⟨?_, ?_, ?_, ?_, ?_, ?_, ?_⟩ <;> simp only [] <;> omega

/-- The runs-to-the-end lemma at the loop's canonical fuel. -/
theorem scanWhile_all (src : List Nat) (p : Nat → Bool)
    (it : ParserIterator) (r : Range) (hle : it.ofs ≤ src.length)
    (hall : ∀ j, it.ofs ≤ j → j < src.length → p (src.getD j 0) = true) :
    (scanWhile src p it r).1.ofs = src.length ∧
    (scanWhile src p it r).1.row = it.row ∧
    (scanWhile src p it r).1.col = it.col + (src.length - it.ofs) ∧
    (scanWhile src p it r).2.ofs = r.ofs ∧
    (scanWhile src p it r).2.row = r.row ∧
    (scanWhile src p it r).2.col = r.col ∧
    (scanWhile src p it r).2.length = r.length + (src.length - it.ofs) :=
  scanWhileF_all src p (src.length - it.ofs) it r hle (by omega) hall

end Vs64Asm

namespace Vs64Asm

/-! ## Token bookkeeping lemmas -/

@[simp] theorem token_with_first_range (t : Token) (b : Bool) :
    ({ t with first := b } : Token).range = t.range := rfl

@[simp] theorem token_with_first_type (t : Token) (b : Bool) :
    ({ t with first := b } : Token).type = t.type := rfl

/-- The classifier never touches the token list. -/
theorem lexer_tokens (isOp : List Nat → Bool) (src : List Nat) (ast : AST)
    (tokenOffset : Int) (tokenCount : Nat) :
    (lexer isOp src ast tokenOffset tokenCount).tokens = ast.tokens := by
  unfold lexer
  dsimp only
  split
  · rfl
  · split
    · rfl
    · split
      · rfl
      · split
        · rfl
        · rfl

/-- The per-token bookkeeping appends exactly the incoming token, flagged
when the running line count is zero. -/
theorem processToken_tokens (isOp : List Nat → Bool) (src : List Nat)
    (ls : LexState) (token : Token) :
    (processToken isOp src ls token).ast.tokens =
      ls.ast.tokens ++
        [if ls.lineCount = 0 then { token with first := true } else token] := by
  unfold processToken
  split_ifs <;> (dsimp only; split <;> simp [AST.addToken, lexer_tokens])

/-- Two tokens with non-overlapping, ordered spans: the first span ends at
or before the second begins. -/
def tokenDisj (a b : Token) : Prop :=
  a.range.ofs + a.range.length ≤ b.range.ofs

/-- Folding the per-token bookkeeping over a batch of tokens preserves the
disjoint-and-ordered invariant of the token list, with all spans bounded
by the batch bound. -/
theorem foldl_processToken_inv (isOp : List Nat → Bool) (src : List Nat) :
    ∀ (toks : List Token) (ls : LexState) (B : Nat),
      List.Pairwise tokenDisj ls.ast.tokens →
      (∀ a ∈ ls.ast.tokens, ∀ b ∈ toks, tokenDisj a b) →
      (∀ a ∈ ls.ast.tokens, a.range.ofs + a.range.length ≤ B) →
      List.Pairwise tokenDisj toks →
      (∀ b ∈ toks, b.range.ofs + b.range.length ≤ B) →
      List.Pairwise tokenDisj
        (toks.foldl (processToken isOp src) ls).ast.tokens ∧
      (∀ a ∈ (toks.foldl (processToken isOp src) ls).ast.tokens,
        a.range.ofs + a.range.length ≤ B) := by
  intro toks
  induction toks with
  | nil => intro ls B h1 _ h3 _ _; exact ⟨h1, h3⟩
  | cons t rest ih =>
    intro ls B h1 h2 h3 h4 h5
    simp only [List.foldl_cons]
    have htoks := processToken_tokens isOp src ls t
    have hrange :
        (if ls.lineCount = 0 then { t with first := true } else t).range =
          t.range := by
      split <;> rfl
    apply ih (processToken isOp src ls t) B
    · rw [htoks, List.pairwise_append]
      refine ⟨h1, List.pairwise_singleton _ _, ?_⟩
      intro a ha b hb
      simp only [List.mem_singleton] at hb
      subst hb
      unfold tokenDisj
      rw [hrange]
      exact h2 a ha t (List.mem_cons_self t rest)
    · intro a ha b hb
      rw [htoks] at ha
      rcases List.mem_append.1 ha with hold | hnew
      · exact h2 a hold b (List.mem_cons_of_mem t hb)
      · simp only [List.mem_singleton] at hnew
        subst hnew
        unfold tokenDisj
        rw [hrange]
        exact (List.pairwise_cons.1 h4).1 b hb
    · intro a ha
      rw [htoks] at ha
      rcases List.mem_append.1 ha with hold | hnew
      · exact h3 a hold
      · simp only [List.mem_singleton] at hnew
        subst hnew
        rw [hrange]
        exact h5 t (List.mem_cons_self t rest)
    · exact (List.pairwise_cons.1 h4).2
    · intro b hb
      exact h5 b (List.mem_cons_of_mem t hb)

end Vs64Asm

namespace Vs64Asm

/-- A lookahead character that is known to be nonzero implies the next
offset is still inside the buffer. -/
theorem nextChar_pos (src : List Nat) (it : ParserIterator)
    (hne : nextChar src it ≠ 0) : it.ofs + 1 < src.length := by
  unfold nextChar at hne
  by_contra hno
  rw [if_neg hno] at hne
  exact hne rfl

/-- Span accounting for one scanner iteration: the iterator strictly
advances, stays within the buffer, and the emitted tokens carry spans
that lie between the old and the new offset, pairwise disjoint and in
order. -/
theorem scanToken_bounds (src : List Nat) (lineCount : Nat)
    (it : ParserIterator) (h : it.ofs < src.length) :
    it.ofs < (scanToken src lineCount it).1.ofs ∧
    (scanToken src lineCount it).1.ofs ≤ src.length ∧
    (∀ t ∈ (scanToken src lineCount it).2,
      it.ofs ≤ t.range.ofs ∧
      t.range.ofs + t.range.length ≤ (scanToken src lineCount it).1.ofs) ∧
    List.Pairwise tokenDisj (scanToken src lineCount it).2 := by
  have hpeek : ParserIterator.peek src it = src.getD it.ofs 0 := by
    unfold ParserIterator.peek
    rw [if_neg (by omega)]
  unfold scanToken
  split
  · next hc =>
    split
    · next hc2 =>
      have hlt1 : it.ofs + 1 < src.length :=
        nextChar_pos src it (by rw [hc2.2]; omega)
      refine ⟨?_, ?_, ?_, ?_⟩
      · simp only [ParserIterator.nextline_ofs, ParserIterator.next_ofs]
        omega
      · simp only [ParserIterator.nextline_ofs, ParserIterator.next_ofs]
        omega
      · intro t ht
        simp only [List.mem_cons, List.not_mem_nil, or_false] at ht
        subst ht
        simp only [ParserIterator.nextline_ofs, ParserIterator.next_ofs,
          Range.inc_ofs, Range.inc_length, mkRange_ofs, mkRange_length]
        omega
      · simp
    · next hc2 =>
      refine ⟨?_, ?_, ?_, ?_⟩
      · simp
      · simp only [ParserIterator.nextline_ofs]
        omega
      · intro t ht
        simp only [List.mem_cons, List.not_mem_nil, or_false] at ht
        subst ht
        simp only [ParserIterator.nextline_ofs, mkRange_ofs, mkRange_length]
        omega
      · simp
  · next hc1 =>
    split
    · next hc =>
      rw [hpeek] at hc
      have hw := scanWhile_fields src notEol it (mkRange it)
      simp only [mkRange_ofs, mkRange_row, mkRange_col, mkRange_length] at hw
      obtain ⟨w1, w2, w3, w4, w5, w6⟩ := hw
      have hadv : it.ofs < (scanWhile src notEol it (mkRange it)).1.ofs :=
        scanWhile_advance src notEol it (mkRange it) h (by rw [hc]; rfl)
      dsimp only
      refine ⟨hadv, w6 (by omega), ?_, ?_⟩
      · intro t ht
        simp only [List.mem_cons, List.not_mem_nil, or_false] at ht
        subst ht
        dsimp only
        omega
      · simp
    · next hc2 =>
      split
      · next hpp =>
        have hlt1 : it.ofs + 1 < src.length :=
          nextChar_pos src it (by rw [hpp.2]; omega)
        refine ⟨?_, ?_, ?_, ?_⟩
        · simp only [ParserIterator.next_ofs]
          omega
        · simp only [ParserIterator.next_ofs]
          omega
        · intro t ht
          simp only [List.not_mem_nil] at ht
        · simp
      · next hpp2 =>
        split
        · next hid =>
          split
          · next hplus =>
            have hlt1 : it.ofs + 1 < src.length := by
              refine nextChar_pos src it (fun h0 => ?_)
              rw [h0] at hplus
              exact absurd hplus.2 (by decide)
            split
            · next hlc =>
              have hw := scanWhile_fields src isSymbolChar
                (ParserIterator.next it) (mkRange (ParserIterator.next it))
              simp only [mkRange_ofs, mkRange_row, mkRange_col,
                mkRange_length, ParserIterator.next_ofs] at hw
              obtain ⟨w1, w2, w3, w4, w5, w6⟩ := hw
              dsimp only
              refine ⟨by omega, w6 (by omega), ?_, ?_⟩
              · intro t ht
                simp only [List.mem_cons, List.not_mem_nil, or_false] at ht
                rcases ht with ht | ht
                · subst ht
                  simp only [Range.inc_ofs, Range.inc_length, mkRange_ofs,
                    mkRange_length]
                  omega
                · subst ht
                  dsimp only
                  omega
              · constructor
                · intro b hb
                  simp only [List.mem_cons, List.not_mem_nil, or_false] at hb
                  subst hb
                  unfold tokenDisj
                  simp only [Range.inc_ofs, Range.inc_length, mkRange_ofs,
                    mkRange_length]
                  omega
                · simp
            · next hlc =>
              have hw := scanWhile_fields src isSymbolChar
                (ParserIterator.next (ParserIterator.next it))
                (Range.inc (mkRange (ParserIterator.next it)))
              simp only [mkRange_ofs, mkRange_row, mkRange_col,
                mkRange_length, ParserIterator.next_ofs, Range.inc_ofs,
                Range.inc_row, Range.inc_col, Range.inc_length] at hw
              obtain ⟨w1, w2, w3, w4, w5, w6⟩ := hw
              dsimp only
              refine ⟨by omega, w6 (by omega), ?_, ?_⟩
              · intro t ht
                simp only [List.mem_cons, List.not_mem_nil, or_false] at ht
                subst ht
                dsimp only
                omega
              · simp
          · next hplus2 =>
            have hw := scanWhile_fields src isSymbolChar
              (ParserIterator.next it) (Range.inc (mkRange it))
            simp only [mkRange_ofs, mkRange_row, mkRange_col, mkRange_length,
              ParserIterator.next_ofs, Range.inc_ofs, Range.inc_row,
              Range.inc_col, Range.inc_length] at hw
            obtain ⟨w1, w2, w3, w4, w5, w6⟩ := hw
            dsimp only
            refine ⟨by omega, w6 (by omega), ?_, ?_⟩
            · intro t ht
              simp only [List.mem_cons, List.not_mem_nil, or_false] at ht
              subst ht
              dsimp only
              omega
            · simp
        · next hid2 =>
          split
          · next hbang =>
            have hw := scanWhile_fields src isSymbolChar
              (ParserIterator.next it) (Range.inc (mkRange it))
            simp only [mkRange_ofs, mkRange_row, mkRange_col, mkRange_length,
              ParserIterator.next_ofs, Range.inc_ofs, Range.inc_row,
              Range.inc_col, Range.inc_length] at hw
            obtain ⟨w1, w2, w3, w4, w5, w6⟩ := hw
            dsimp only
            refine ⟨by omega, w6 (by omega), ?_, ?_⟩
            · intro t ht
              simp only [List.mem_cons, List.not_mem_nil, or_false] at ht
              subst ht
              dsimp only
              omega
            · simp
          · next hbang2 =>
            split
            · next hquote =>
              have hw := scanWhile_fields src
                (notChar (ParserIterator.peek src it))
                (ParserIterator.next it) (mkRange (ParserIterator.next it))
              simp only [mkRange_ofs, mkRange_row, mkRange_col,
                mkRange_length, ParserIterator.next_ofs] at hw
              obtain ⟨w1, w2, w3, w4, w5, w6⟩ := hw
              have hW : it.ofs + 1 ≤ src.length := by omega
              have hse :
                  it.ofs <
                    (stringEndIt src (ParserIterator.peek src it) it).ofs ∧
                  (stringEndIt src (ParserIterator.peek src it) it).ofs ≤
                    src.length ∧
                  (scanWhile src (notChar (ParserIterator.peek src it))
                      (ParserIterator.next it)
                      (mkRange (ParserIterator.next it))).1.ofs ≤
                    (stringEndIt src (ParserIterator.peek src it) it).ofs := by
                unfold stringEndIt
                split
                · next hlt =>
                  simp only [ParserIterator.next_ofs]
                  omega
                · next hge =>
                  have := w6 hW
                  omega
              dsimp only
              refine ⟨hse.1, hse.2.1, ?_, ?_⟩
              · intro t ht
                simp only [List.mem_cons, List.not_mem_nil, or_false] at ht
                subst ht
                dsimp only
                have := hse.2.2
                omega
              · simp
            · next hq2 =>
              refine ⟨?_, ?_, ?_, ?_⟩
              · simp only [ParserIterator.next_ofs]
                omega
              · simp only [ParserIterator.next_ofs]
                omega
              · intro t ht
                simp only [List.not_mem_nil] at ht
              · simp

end Vs64Asm

namespace Vs64Asm

/-! ## Parse-level invariants -/

/-- Invariant of the parse loop: the cursor stays inside the buffer and
the token list is disjoint, ordered and bounded by the cursor. -/
def ScanInv (src : List Nat) (st : ScanState) : Prop :=
  st.it.ofs ≤ src.length ∧
  List.Pairwise tokenDisj st.ls.ast.tokens ∧
  (∀ a ∈ st.ls.ast.tokens, a.range.ofs + a.range.length ≤ st.it.ofs)

/-- One parse iteration preserves the invariant. -/
theorem parseStep_inv (isOp : List Nat → Bool) (src : List Nat)
    (st : ScanState) (hlt : st.it.ofs < src.length) (hinv : ScanInv src st) :
    ScanInv src (parseStep isOp src st) := by
  obtain ⟨h1, h2, h3⟩ := hinv
  obtain ⟨b1, b2, b3, b4⟩ := scanToken_bounds src st.ls.lineCount st.it hlt
  have hfold := foldl_processToken_inv isOp src
    (scanToken src st.ls.lineCount st.it).2 st.ls
    (scanToken src st.ls.lineCount st.it).1.ofs
    h2
    (fun a ha b hb => by
      unfold tokenDisj
      have hha := h3 a ha
      have hhb := (b3 b hb).1
      omega)
    (fun a ha => by have := h3 a ha; omega)
    b4
    (fun b hb => (b3 b hb).2)
  unfold parseStep ScanInv
  dsimp only
  exact ⟨b2, hfold.1, hfold.2⟩

/-- The whole loop preserves the invariant. -/
theorem parseLoop_inv (isOp : List Nat → Bool) (src : List Nat) :
    ∀ (fuel : Nat) (st : ScanState), ScanInv src st →
      ScanInv src (parseLoop isOp src fuel st) := by
  intro fuel
  induction fuel with
  | zero => intro st hh; exact hh
  | succ n ih =>
    intro st hh
    simp only [parseLoop]
    split
    · next hlt => exact ih _ (parseStep_inv isOp src st hlt hh)
    · exact hh

/-- The final token stream of a parse run is disjoint, ordered and bounded
by the buffer length. -/
theorem parse_tokens_inv (isOp : List Nat → Bool) (src : List Nat) :
    List.Pairwise tokenDisj (parse isOp src).tokens ∧
    (∀ a ∈ (parse isOp src).tokens,
      a.range.ofs + a.range.length ≤ src.length) := by
  have hinit : ScanInv src initState := by
    refine ⟨by simp [initState], ?_, ?_⟩ <;>
      simp [initState, emptyAst]
  have hinv := parseLoop_inv isOp src src.length initState hinit
  obtain ⟨h1, h2, h3⟩ := hinv
  unfold parse
  dsimp only
  split
  · next hc =>
    rw [lexer_tokens]
    exact ⟨h2, fun a ha => Nat.le_trans (h3 a ha) h1⟩
  · next hc =>
    exact ⟨h2, fun a ha => Nat.le_trans (h3 a ha) h1⟩

/-- Past end of input the loop is the identity, whatever the fuel. -/
theorem parseLoop_eof (isOp : List Nat → Bool) (src : List Nat)
    (fuel : Nat) (st : ScanState) (h : ¬ st.it.ofs < src.length) :
    parseLoop isOp src fuel st = st := by
  cases fuel with
  | zero => rfl
  | succ n =>
    simp only [parseLoop]
    rw [if_neg h]

/-- Enough fuel is as good as any more: the loop result is stable once the
fuel covers the remaining distance to the end of the buffer. -/
theorem parseLoop_add (isOp : List Nat → Bool) (src : List Nat) :
    ∀ (f k : Nat) (st : ScanState), src.length ≤ st.it.ofs + f →
      parseLoop isOp src (f + k) st = parseLoop isOp src f st := by
  intro f
  induction f with
  | zero =>
    intro k st hh
    rw [Nat.zero_add, parseLoop_eof isOp src k st (by omega)]
    rfl
  | succ n ih =>
    intro k st hh
    by_cases hlt : st.it.ofs < src.length
    · have he : n + 1 + k = n + k + 1 := by omega
      rw [he]
      simp only [parseLoop]
      rw [if_pos hlt, if_pos hlt]
      have hadv := (scanToken_bounds src st.ls.lineCount st.it hlt).1
      refine ih k (parseStep isOp src st) ?_
      unfold parseStep
      dsimp only
      omega
    · rw [parseLoop_eof isOp src _ st hlt, parseLoop_eof isOp src _ st hlt]

end Vs64Asm

namespace Vs64Asm

/-! ## Claim theorems -/

/-- C8: for every input buffer, the token stream produced by one parse has
spans that never overlap (each span ends at or before the next begins),
start offsets in non-decreasing order, and every span contained in
`[0, length)` — so each character lies in at most one token's span, the
rest being skipped advances. -/
theorem parse_tokens_disjoint_ordered_bounded :
    ∀ (isOp : List Nat → Bool) (src : List Nat),
      List.Pairwise tokenDisj (parse isOp src).tokens ∧
      List.Pairwise (fun a b : Token => a.range.ofs ≤ b.range.ofs)
        (parse isOp src).tokens ∧
      (∀ t ∈ (parse isOp src).tokens,
        t.range.ofs + t.range.length ≤ src.length) := by
  intro isOp src
  obtain ⟨h1, h2⟩ := parse_tokens_inv isOp src
  refine ⟨h1, ?_, h2⟩
  refine h1.imp ?_
  intro a b hab
  unfold tokenDisj at hab
  omega

/-- C9: the parse loop terminates on every finite buffer: each iteration
advances the cursor by at least one character, so running the loop with
fuel `src.length` already reaches the end — more fuel changes nothing. -/
theorem parse_loop_terminates_within_length :
    ∀ (isOp : List Nat → Bool) (src : List Nat),
      (∀ st : ScanState, st.it.ofs < src.length →
        st.it.ofs + 1 ≤ (parseStep isOp src st).it.ofs) ∧
      (∀ fuel : Nat, src.length ≤ fuel →
        parseLoop isOp src fuel initState =
          parseLoop isOp src src.length initState) := by
  intro isOp src
  constructor
  · intro st hlt
    have hadv := (scanToken_bounds src st.ls.lineCount st.it hlt).1
    unfold parseStep
    dsimp only
    omega
  · intro fuel hf
    have hb := parseLoop_add isOp src src.length (fuel - src.length)
      initState (by simp [initState])
    rwa [show src.length + (fuel - src.length) = fuel by omega] at hb

/-- Witness for C9 at a concrete buffer. -/
theorem parse_loop_terminates_witness :
    ((⟨⟨0, 0, 0⟩, ⟨-1, 0, emptyAst⟩⟩ : ScanState).it.ofs <
        (strCodes "a").length →
      (⟨⟨0, 0, 0⟩, ⟨-1, 0, emptyAst⟩⟩ : ScanState).it.ofs + 1 ≤
        (parseStep (fun _ => false) (strCodes "a")
          ⟨⟨0, 0, 0⟩, ⟨-1, 0, emptyAst⟩⟩).it.ofs) ∧
    parseLoop (fun _ => false) (strCodes "a") 5 initState =
      parseLoop (fun _ => false) (strCodes "a") (strCodes "a").length
        initState :=
  ⟨(parse_loop_terminates_within_length (fun _ => false) (strCodes "a")).1
      ⟨⟨0, 0, 0⟩, ⟨-1, 0, emptyAst⟩⟩,
   (parse_loop_terminates_within_length (fun _ => false) (strCodes "a")).2
      5 (by decide)⟩

/-- C10: a token receives the first-on-line flag exactly when it is
appended while the per-line running count is zero; in particular the
LineBreak token of an empty line and a Comment token that begins its line
are flagged even though they terminate the line without being counted. -/
theorem first_on_line_flag_iff_zero_count :
    (∀ (isOp : List Nat → Bool) (src : List Nat) (ls : LexState) (t : Token),
      t.first = false →
      (processToken isOp src ls t).ast.tokens =
        ls.ast.tokens ++ [{ t with first := decide (ls.lineCount = 0) }]) ∧
    (parse (fun _ => false) (strCodes "\n")).tokens.map
      (fun t => (t.type, t.first)) = [(TokenType.LineBreak, true)] ∧
    (parse (fun _ => false) (strCodes "; c")).tokens.map
      (fun t => (t.type, t.first)) = [(TokenType.Comment, true)] := by
  refine ⟨?_, by decide, by decide⟩
  intro isOp src ls t hf
  rw [processToken_tokens]
  by_cases h0 : ls.lineCount = 0
  · simp [h0]
  · simp only [h0, if_false]
    obtain ⟨ty, rg, fs⟩ := t
    simp only at hf
    subst hf
    simp

/-- Witness for C10: a fresh token appended at line start is flagged. -/
theorem first_on_line_flag_witness :
    (⟨TokenType.Identifier, ⟨0, 0, 0, 1⟩, false⟩ : Token).first = false ∧
    (processToken (fun _ => false) [] ⟨-1, 0, emptyAst⟩
        ⟨TokenType.Identifier, ⟨0, 0, 0, 1⟩, false⟩).ast.tokens =
      emptyAst.tokens ++
        [⟨TokenType.Identifier, ⟨0, 0, 0, 1⟩, true⟩] :=
  ⟨rfl,
   first_on_line_flag_iff_zero_count.1 (fun _ => false) [] ⟨-1, 0, emptyAst⟩
     ⟨TokenType.Identifier, ⟨0, 0, 0, 1⟩, false⟩ rfl⟩

end Vs64Asm

namespace Vs64Asm

/-- C1 counterexample: parsing a comment-only file produces no statements
at all — in particular not exactly one Comment statement.  The Comment
token terminates its logical line while the accumulated token count is
still zero, so the classifier is never invoked. -/
theorem commentOnly_line_no_statement_cex :
    (parse (fun _ => false) (strCodes "; comment only\n")).statements.length
      ≠ 1 := by decide

/-- C1 (amended): a comment-only line yields zero statements and zero
definitions; the classifier itself, when invoked on a token span whose
first token is a Comment, produces a Comment statement spanning that one
token. -/
theorem commentOnly_line_and_lexer_comment_rule :
    (∀ isOp : List Nat → Bool,
      (parse isOp (strCodes "; comment only\n")).statements = [] ∧
      (parse isOp (strCodes "; comment only\n")).definitions = []) ∧
    (∀ (isOp : List Nat → Bool) (src : List Nat) (ast : AST)
        (ofs count : Nat),
      1 ≤ count → ofs + count ≤ ast.tokens.length →
      (ast.tokens.getD ofs defaultToken).type = TokenType.Comment →
      lexer isOp src ast (ofs : Int) count =
        { ast with
          statements := ast.statements ++ [⟨StatementType.Comment, ofs, 1⟩] }) := by
  constructor
  · intro isOp
    exact ⟨rfl, rfl⟩
  · intro isOp src ast ofs count h1 h2 hty
    have hg1 : ¬ (count < 1) := by omega
    have hg2 : ¬ (ast.tokens.length < (Int.toNat ofs) + count) := by
      simp only [Int.toNat_natCast]
      omega
    unfold lexer
    rw [if_neg hg1]
    dsimp only
    rw [if_neg hg2]
    simp only [Int.toNat_natCast]
    have hni : ¬ ((ast.tokens.getD ofs defaultToken).type =
        TokenType.Identifier) := by
      rw [hty]; decide
    rw [if_neg hni, if_pos hty]
    rfl

/-- Witness for the amended C1 classifier rule at a concrete line. -/
theorem commentOnly_lexer_comment_rule_witness :
    lexer (fun _ => false) (strCodes "; c")
        ⟨[⟨TokenType.Comment, ⟨0, 0, 0, 3⟩, true⟩], [], []⟩ (0 : Int) 1 =
      ⟨[⟨TokenType.Comment, ⟨0, 0, 0, 3⟩, true⟩],
       [⟨StatementType.Comment, 0, 1⟩], []⟩ :=
  commentOnly_line_and_lexer_comment_rule.2 (fun _ => false) (strCodes "; c")
    ⟨[⟨TokenType.Comment, ⟨0, 0, 0, 3⟩, true⟩], [], []⟩ 0 1
    (by decide) (by decide) (by decide)

/-- C3 counterexample: scanning "\r\n" emits one LineBreak token, but its
span has length 1, not 2. -/
theorem crlf_linebreak_span_cex :
    (parse (fun _ => false) (strCodes "\r\n")).tokens.map
      (fun t => (t.type, t.range.length)) ≠ [(TokenType.LineBreak, 2)] := by
  decide

/-- C3 (amended): scanning "\r\n" emits exactly one LineBreak token whose
span starts at offset 0 and has length 1 (the span is incremented once
when the LF is absorbed), and scanning "\n" emits exactly one LineBreak
token whose span has length 0 (the span is created empty and never
grown). -/
theorem crlf_lf_linebreak_span_lengths :
    ∀ isOp : List Nat → Bool,
      (parse isOp (strCodes "\r\n")).tokens.map
        (fun t => (t.type, t.range.ofs, t.range.length)) =
        [(TokenType.LineBreak, 0, 1)] ∧
      (parse isOp (strCodes "\n")).tokens.map
        (fun t => (t.type, t.range.ofs, t.range.length)) =
        [(TokenType.LineBreak, 0, 0)] :=
  fun _ => ⟨rfl, rfl⟩

end Vs64Asm

namespace Vs64Asm

/-- C4: the classifier produces a Definition statement for a line span
exactly when (a) the first token is an Identifier whose text is not a
reserved opcode name — the Definition then spans that token — or (b) the
line has more than one token, its first token is a Macro with text
exactly "!macro", "!set" or "!addr", and its second token is a
non-opcode Identifier — the Definition then spans the second token; every
produced Definition is also appended to the definitions collection, and
when neither condition holds the definitions collection is unchanged and
at most a Comment statement is produced. -/
theorem lexer_definition_classification (isOp : List Nat → Bool)
    (src : List Nat) (ast : AST) (ofs count : Nat)
    (h1 : 1 ≤ count) (h2 : ofs + count ≤ ast.tokens.length) :
    (((ast.tokens.getD ofs defaultToken).type = TokenType.Identifier ∧
        isOp (tokenText src (ast.tokens.getD ofs defaultToken)) = false) →
      lexer isOp src ast (ofs : Int) count =
        { ast with
          statements :=
            ast.statements ++ [⟨StatementType.Definition, ofs, 1⟩],
          definitions :=
            ast.definitions ++ [⟨StatementType.Definition, ofs, 1⟩] }) ∧
    ((1 < count ∧
        (ast.tokens.getD ofs defaultToken).type = TokenType.Macro ∧
        (tokenText src (ast.tokens.getD ofs defaultToken) =
            strCodes "!macro" ∨
         tokenText src (ast.tokens.getD ofs defaultToken) =
            strCodes "!set" ∨
         tokenText src (ast.tokens.getD ofs defaultToken) =
            strCodes "!addr") ∧
        (ast.tokens.getD (ofs + 1) defaultToken).type =
          TokenType.Identifier ∧
        isOp (tokenText src (ast.tokens.getD (ofs + 1) defaultToken)) =
          false) →
      lexer isOp src ast (ofs : Int) count =
        { ast with
          statements :=
            ast.statements ++ [⟨StatementType.Definition, ofs + 1, 1⟩],
          definitions :=
            ast.definitions ++ [⟨StatementType.Definition, ofs + 1, 1⟩] }) ∧
    (¬ ((ast.tokens.getD ofs defaultToken).type = TokenType.Identifier ∧
        isOp (tokenText src (ast.tokens.getD ofs defaultToken)) = false) →
     ¬ (1 < count ∧
        (ast.tokens.getD ofs defaultToken).type = TokenType.Macro ∧
        (tokenText src (ast.tokens.getD ofs defaultToken) =
            strCodes "!macro" ∨
         tokenText src (ast.tokens.getD ofs defaultToken) =
            strCodes "!set" ∨
         tokenText src (ast.tokens.getD ofs defaultToken) =
            strCodes "!addr") ∧
        (ast.tokens.getD (ofs + 1) defaultToken).type =
          TokenType.Identifier ∧
        isOp (tokenText src (ast.tokens.getD (ofs + 1) defaultToken)) =
          false) →
      (lexer isOp src ast (ofs : Int) count).definitions =
        ast.definitions ∧
      ((lexer isOp src ast (ofs : Int) count).statements =
          ast.statements ∨
       (lexer isOp src ast (ofs : Int) count).statements =
          ast.statements ++ [⟨StatementType.Comment, ofs, 1⟩])) := by
  have hg1 : ¬ (count < 1) := by omega
  have hg2 : ¬ (ast.tokens.length < (Int.toNat ofs) + count) := by
    simp only [Int.toNat_natCast]
    omega
  refine ⟨?_, ?_, ?_⟩
  · rintro ⟨hty, hop⟩
    unfold lexer
    rw [if_neg hg1]
    dsimp only
    rw [if_neg hg2]
    simp only [Int.toNat_natCast]
    rw [if_pos hty, if_pos hop]
    rfl
  · rintro ⟨hcnt, hmac, htext, hty2, hop2⟩
    unfold lexer
    rw [if_neg hg1]
    dsimp only
    rw [if_neg hg2]
    simp only [Int.toNat_natCast]
    rw [if_neg (by rw [hmac]; decide :
          ¬ ((ast.tokens.getD ofs defaultToken).type =
            TokenType.Identifier))]
    rw [if_neg (by rw [hmac]; decide :
          ¬ ((ast.tokens.getD ofs defaultToken).type =
            TokenType.Comment))]
    rw [if_pos hcnt]
    rw [if_pos (And.intro hmac (And.intro htext hty2)), if_pos hop2]
    rfl
  · intro hnA hnB
    unfold lexer
    rw [if_neg hg1]
    dsimp only
    rw [if_neg hg2]
    simp only [Int.toNat_natCast]
    by_cases hty : (ast.tokens.getD ofs defaultToken).type =
        TokenType.Identifier
    · rw [if_pos hty]
      by_cases hop : isOp (tokenText src (ast.tokens.getD ofs defaultToken))
          = false
      · exact absurd ⟨hty, hop⟩ hnA
      · rw [if_neg hop]
        exact ⟨rfl, Or.inl rfl⟩
    · rw [if_neg hty]
      by_cases hcm : (ast.tokens.getD ofs defaultToken).type =
          TokenType.Comment
      · rw [if_pos hcm]
        exact ⟨rfl, Or.inr rfl⟩
      · rw [if_neg hcm]
        by_cases hcnt : 1 < count
        · rw [if_pos hcnt]
          by_cases hB1 : (ast.tokens.getD ofs defaultToken).type =
              TokenType.Macro ∧
              (tokenText src (ast.tokens.getD ofs defaultToken) =
                  strCodes "!macro" ∨
               tokenText src (ast.tokens.getD ofs defaultToken) =
                  strCodes "!set" ∨
               tokenText src (ast.tokens.getD ofs defaultToken) =
                  strCodes "!addr") ∧
              (ast.tokens.getD (ofs + 1) defaultToken).type =
                TokenType.Identifier
          · obtain ⟨hm, ht, h2ty⟩ := hB1
            by_cases hop2 : isOp (tokenText src
                (ast.tokens.getD (ofs + 1) defaultToken)) = false
            · exact absurd ⟨hcnt, hm, ht, h2ty, hop2⟩ hnB
            · rw [if_pos (And.intro hm (And.intro ht h2ty)), if_neg hop2]
              exact ⟨rfl, Or.inl rfl⟩
          · rw [if_neg hB1]
            exact ⟨rfl, Or.inl rfl⟩
        · rw [if_neg hcnt]
          exact ⟨rfl, Or.inl rfl⟩

/-- Witness for C4 at a concrete one-identifier line. -/
theorem lexer_definition_classification_witness :
    lexer (fun _ => false) (strCodes "x")
        ⟨[⟨TokenType.Identifier, ⟨0, 0, 0, 1⟩, true⟩], [], []⟩ (0 : Int) 1 =
      ⟨[⟨TokenType.Identifier, ⟨0, 0, 0, 1⟩, true⟩],
       [⟨StatementType.Definition, 0, 1⟩],
       [⟨StatementType.Definition, 0, 1⟩]⟩ :=
  (lexer_definition_classification (fun _ => false) (strCodes "x")
      ⟨[⟨TokenType.Identifier, ⟨0, 0, 0, 1⟩, true⟩], [], []⟩ 0 1
      (by decide) (by decide)).1 ⟨rfl, rfl⟩

end Vs64Asm

namespace Vs64Asm

/-- C5: a '+' followed by a symbol-constituent character scanned at the
first token position of a logical line (zero accumulated tokens) emits a
single-character Reference token for the '+' followed by an Identifier
token starting right after it; with tokens already accumulated, the '+' is
silently skipped and only the Identifier is emitted. -/
theorem plus_sigil_reference_emission (src : List Nat) (it : ParserIterator)
    (lineCount : Nat) (h1 : it.ofs < src.length)
    (h2 : src.getD it.ofs 0 = 43) (h3 : it.ofs + 1 < src.length)
    (h4 : isSymbolChar (src.getD (it.ofs + 1) 0) = true) :
    (lineCount = 0 →
      ∃ r : Range, (scanToken src lineCount it).2 =
        [⟨TokenType.Reference, ⟨it.ofs, it.row, it.col, 1⟩, false⟩,
         ⟨TokenType.Identifier, r, false⟩] ∧ r.ofs = it.ofs + 1) ∧
    (0 < lineCount →
      ∃ r : Range, (scanToken src lineCount it).2 =
        [⟨TokenType.Identifier, r, false⟩] ∧ r.ofs = it.ofs + 1) := by
  have hpeek : ParserIterator.peek src it = 43 := by
    unfold ParserIterator.peek
    rw [if_neg (by omega)]
    exact h2
  have hnc : nextChar src it = src.getD (it.ofs + 1) 0 := by
    unfold nextChar
    rw [if_pos h3]
  unfold scanToken
  rw [hpeek, hnc]
  rw [if_neg (by decide : ¬ ((43 : Nat) = 13 ∨ (43 : Nat) = 10))]
  rw [if_neg (by decide : ¬ ((43 : Nat) = 59))]
  rw [if_neg (fun hc => by
    rw [hc.2] at h4
    exact absurd h4 (by decide))]
  rw [if_pos (Or.inr (Or.inr (Or.inr ⟨rfl, h4⟩)))]
  rw [if_pos ⟨rfl, h4⟩]
  constructor
  · intro h0
    rw [if_pos h0]
    refine ⟨(scanWhile src isSymbolChar (ParserIterator.next it)
        (mkRange (ParserIterator.next it))).2, ?_, ?_⟩
    · rfl
    · have := (scanWhile_fields src isSymbolChar (ParserIterator.next it)
        (mkRange (ParserIterator.next it))).1
      simp only [mkRange_ofs, ParserIterator.next_ofs] at this
      exact this
  · intro hpos
    rw [if_neg (by omega : ¬ lineCount = 0)]
    refine ⟨(scanWhile src isSymbolChar
        (ParserIterator.next (ParserIterator.next it))
        (Range.inc (mkRange (ParserIterator.next it)))).2, ?_, ?_⟩
    · rfl
    · have := (scanWhile_fields src isSymbolChar
        (ParserIterator.next (ParserIterator.next it))
        (Range.inc (mkRange (ParserIterator.next it)))).1
      simp only [Range.inc_ofs, mkRange_ofs, ParserIterator.next_ofs] at this
      exact this

/-- Witness for C5 on the line "+irq" at its first token position. -/
theorem plus_sigil_reference_emission_witness :
    ((0 : Nat) = 0 →
      ∃ r : Range, (scanToken (strCodes "+irq") 0 ⟨0, 0, 0⟩).2 =
        [⟨TokenType.Reference, ⟨0, 0, 0, 1⟩, false⟩,
         ⟨TokenType.Identifier, r, false⟩] ∧ r.ofs = 0 + 1) ∧
    (0 < (0 : Nat) →
      ∃ r : Range, (scanToken (strCodes "+irq") 0 ⟨0, 0, 0⟩).2 =
        [⟨TokenType.Identifier, r, false⟩] ∧ r.ofs = 0 + 1) :=
  plus_sigil_reference_emission (strCodes "+irq") ⟨0, 0, 0⟩ 0
    (by decide) (by decide) (by decide) (by decide)

end Vs64Asm

namespace Vs64Asm

/-- C6: when the scanner reaches an opening quote with no matching closing
quote anywhere before end of input, it emits exactly one String token
whose span starts right after the opening quote and runs to end of input,
and the iterator lands exactly at end of input — scanning completes
normally; in particular "'hello" parses to exactly one String token
spanning the five characters of hello. -/
theorem unterminated_string_runs_to_end :
    (∀ (src : List Nat) (it : ParserIterator) (lineCount q : Nat),
      (q = 39 ∨ q = 34) → it.ofs < src.length → src.getD it.ofs 0 = q →
      (∀ j, it.ofs < j → j < src.length → src.getD j 0 ≠ q) →
      (scanToken src lineCount it).2.map
          (fun t => (t.type, t.range.ofs, t.range.length)) =
        [(TokenType.String, it.ofs + 1, src.length - (it.ofs + 1))] ∧
      (scanToken src lineCount it).1.ofs = src.length) ∧
    (parse (fun _ => false) (strCodes "'hello")).tokens.map
      (fun t => (t.type, t.range.ofs, t.range.length)) =
      [(TokenType.String, 1, 5)] := by
  constructor
  · intro src it lineCount q hq hlt hc hall
    have hpeek : ParserIterator.peek src it = q := by
      unfold ParserIterator.peek
      rw [if_neg (by omega)]
      exact hc
    have hw := scanWhile_all src (notChar q) (ParserIterator.next it)
      (mkRange (ParserIterator.next it))
      (by simp only [ParserIterator.next_ofs]; omega)
      (fun j hj1 hj2 => by
        simp only [ParserIterator.next_ofs] at hj1
        have hne := hall j (by omega) hj2
        simp only [notChar, Bool.not_eq_true', beq_eq_false_iff_ne, ne_eq]
        exact hne)
    simp only [ParserIterator.next_ofs, ParserIterator.next_row,
      ParserIterator.next_col, mkRange_ofs, mkRange_row, mkRange_col,
      mkRange_length] at hw
    obtain ⟨a1, a2, a3, a4, a5, a6, a7⟩ := hw
    have hend : (stringEndIt src q it).ofs = src.length := by
      unfold stringEndIt
      rw [if_neg (by omega)]
      exact a1
    have hn1 : ¬ (q = 13 ∨ q = 10) := by
      rcases hq with h | h <;> subst h <;> decide
    have hn2 : ¬ (q = 59) := by
      rcases hq with h | h <;> subst h <;> decide
    have hn3 : ¬ (q = 43 ∧ nextChar src it = 43) := fun hcc => by
      rcases hq with h | h <;> subst h <;> exact absurd hcc.1 (by decide)
    have hn4 : ¬ (q = 46 ∨ q = 95 ∨ isAlpha q = true ∨
        (q = 43 ∧ isSymbolChar (nextChar src it) = true)) := by
      rcases hq with h | h <;> subst h <;>
        rintro (hx | hx | hx | ⟨hx, _⟩) <;> revert hx <;> decide
    have hn5 : ¬ (q = 33) := by
      rcases hq with h | h <;> subst h <;> decide
    unfold scanToken
    rw [hpeek]
    rw [if_neg hn1, if_neg hn2, if_neg hn3, if_neg hn4, if_neg hn5,
      if_pos hq]
    constructor
    · dsimp only
      simp only [List.map_cons, List.map_nil]
      rw [a4, a7]
      simp
    · exact hend
  · decide

/-- Witness for C6 on the unterminated string "'hello". -/
theorem unterminated_string_witness :
    (scanToken (strCodes "'hello") 0 ⟨0, 0, 0⟩).2.map
        (fun t => (t.type, t.range.ofs, t.range.length)) =
      [(TokenType.String, 0 + 1, (strCodes "'hello").length - (0 + 1))] ∧
    (scanToken (strCodes "'hello") 0 ⟨0, 0, 0⟩).1.ofs =
      (strCodes "'hello").length :=
  unterminated_string_runs_to_end.1 (strCodes "'hello") ⟨0, 0, 0⟩ 0 39
    (Or.inl rfl) (by decide) (by decide)
    (by
      intro j hj1 hj2
      have h6 : j < 6 := by simpa [strCodes] using hj2
      interval_cases j <;> decide)

/-- C7: the directive search returns "no match" for every query that is
empty or does not start with a bang; for a bang-prefixed query it returns
the declaration-ordered list of all bang-prefixed directive names having
the query as a literal prefix, or "no match" when that list is empty; in
particular the query "!al" yields a list containing "!align". -/
theorem fuzzySearch_prefix_query_spec :
    (∀ q : String, (q.length < 1 ∨ q.data.headD ' ' ≠ '!') →
      fuzzySearch q = none) ∧
    (∀ q : String, q.data.headD ' ' = '!' →
      fuzzySearch q =
        (if ((pseudoOpcodes.map (fun item => "!" ++ item)).filter
              (fun token => q.data.isPrefixOf token.data)) = [] then none
         else some ((pseudoOpcodes.map (fun item => "!" ++ item)).filter
              (fun token => q.data.isPrefixOf token.data)))) ∧
    (∃ l, fuzzySearch "!al" = some l ∧ "!align" ∈ l) := by
  refine ⟨?_, ?_, ?_⟩
  · intro q hq
    unfold fuzzySearch
    by_cases hlen : q.length < 1
    · rw [if_pos hlen]
    · rw [if_neg hlen]
      dsimp only
      rcases hq with hq | hq
      · exact absurd hq hlen
      · rw [if_neg hq]
        rfl
  · intro q hq
    have hlen : ¬ (q.length < 1) := by
      rcases hqd : q.data with _ | ⟨c, cs⟩
      · rw [hqd] at hq
        simp at hq
      · have hql : q.length = q.data.length := rfl
        rw [hql, hqd]
        simp
    unfold fuzzySearch
    rw [if_neg hlen]
    dsimp only
    rw [if_pos hq]
    by_cases hi : ((pseudoOpcodes.map (fun item => "!" ++ item)).filter
        (fun token => q.data.isPrefixOf token.data)) = []
    · rw [if_pos hi, if_pos (by rw [hi]; decide)]
    · rw [if_neg hi, if_neg (by
        intro hl
        exact hi (List.length_eq_zero.mp (by omega)))]
  · exact ⟨["!align", "!al"], by decide, by decide⟩

/-- Witness for C7: a query without the bang prefix yields no match. -/
theorem fuzzySearch_prefix_query_witness : fuzzySearch "al" = none :=
  fuzzySearch_prefix_query_spec.1 "al" (Or.inr (by decide))

/-- C2 (code evaluation at the failing input): in non-greedy mode the
leftward expansion of getTokenAtSourcePos does not stop after including a
lone period — on "a.b" at offset 2 it returns the whole "a.b", not ".b".
The source's stop test compares a numeric character code against the
string value of a period, which is never equal in JS, so the documented
stop never fires. -/
theorem getTokenAtSourcePos_dot_no_stop :
    getTokenAtSourcePos (strCodes "a.b") 2 false false =
      some (strCodes "a.b") ∧
    getTokenAtSourcePos (strCodes "a.b") 2 false false ≠
      some (strCodes ".b") := by decide

end Vs64Asm
